import Mathlib

/-!
# Verification of the inventory-transformation pipeline of HOF.js

Shallow embedding of the inventory data model and the sequence
transformations of `src/HOF.js` (map/filter/find/findIndex/some/every/reduce
over a list of item records), together with proofs of the spec's contracts
for them.
-/

/-- An inventory item record: `name`, `power`, `broken`
(src/HOF.js lines 194-199). JS numbers here are integer literals, embedded
as `Int`. -/
structure Item where
  name : String
  power : Int
  broken : Bool
deriving DecidableEq, Repr

/-- The example inventory literal (src/HOF.js lines 194-199). -/
def inventory : List Item :=
  [ { name := "Sword", power := 10, broken := false },
    { name := "Shield", power := 5, broken := false },
    { name := "Bow", power := 8, broken := true },
    { name := "Axe", power := 12, broken := false } ]

/-- Modelled from the spec: `upgrade(items, delta)`. The per-element
transformation is the callback of `upgradedInventoryMap`
(src/HOF.js lines 253-259), which rebuilds each record field by field;
the source fixes `delta` to the literal 5, the spec generalises it to an
arbitrary integer. -/
def upgrade (items : List Item) (delta : Int) : List Item :=
  items.map fun item =>
    { name := item.name, power := item.power + delta, broken := item.broken }

/-- `filterUsable(items)`: the filter producing `usableInventory`
(src/HOF.js line 287), keeping the elements with `broken === false`,
generalised from the fixed `inventory` to an arbitrary input list. -/
def filterUsable (items : List Item) : List Item :=
  items.filter fun item => item.broken == false

/-- Modelled from the spec: `upgradeAndFilter(items, delta)`. The body is
`upgradeAndFilterInventory` (src/HOF.js lines 302-313): a `.map` with the
spread-operator callback overriding `power`, then a `.filter` keeping
`!item.broken`; the source fixes `delta` to 5, the spec generalises it. -/
def upgradeAndFilter (items : List Item) (delta : Int) : List Item :=
  (items.map fun item => { item with power := item.power + delta }).filter
    fun item => !item.broken

/-- Modelled from the spec: `findFirstAbove(items, threshold)`. The `.find`
producing `powerfulItem` (src/HOF.js line 341); the source fixes the
threshold to 10, the spec generalises it. JS `.find` returning `undefined`
on no match is embedded as `Option`. -/
def findFirstAbove (items : List Item) (threshold : Int) : Option Item :=
  items.find? fun item => decide (item.power > threshold)

/-- The index-scanning core of JS `.findIndex`: position of the first
element with `broken == true`, `none` when there is none. -/
def findIndexBroken : List Item → Option Nat
  | [] => none
  | item :: rest =>
      if item.broken then some 0 else (findIndexBroken rest).map (· + 1)

/-- `indexOfFirstBroken(items)`: the `.findIndex` producing
`brokenItemIndex` (src/HOF.js line 348), generalised from the fixed
`inventory` to an arbitrary input list. JS `.findIndex` returns -1 when no
element matches, so the result is an `Int`. -/
def indexOfFirstBroken (items : List Item) : Int :=
  match findIndexBroken items with
  | some i => (i : Int)
  | none => -1

/-- `anyBroken(items)`: the `.some` producing `hasBrokenItems`
(src/HOF.js line 356), generalised from the fixed `inventory` to an
arbitrary input list. -/
def anyBroken (items : List Item) : Bool :=
  items.any fun item => item.broken

/-- Modelled from the spec: `allAbove(items, threshold)`. The `.every`
producing `allPowerful` (src/HOF.js line 364); the source fixes the
threshold to 5, the spec generalises it. -/
def allAbove (items : List Item) (threshold : Int) : Bool :=
  items.all fun item => decide (item.power > threshold)

/-- `totalPower(items)`: the `.reduce` of src/HOF.js line 371,
`(sum, item) => sum + item.power` with initial accumulator 0, generalised
from the fixed `inventory` to an arbitrary input list. -/
def totalPower (items : List Item) : Int :=
  items.foldl (fun sum item => sum + item.power) 0

/-- The for-loop upgrade (src/HOF.js lines 217-232): walks the input in
index order and pushes an explicitly rebuilt record with `power + 5` for
each element. -/
def upgradeLoop : List Item → List Item
  | [] => []
  | item :: rest =>
      { name := item.name, power := item.power + 5, broken := item.broken }
        :: upgradeLoop rest

/-- The `.map` upgrade rebuilding each record field by field with
`power + 5` (src/HOF.js lines 253-259), as a function of the input list. -/
def upgradeMap (items : List Item) : List Item :=
  items.map fun item =>
    { name := item.name, power := item.power + 5, broken := item.broken }

/-- The `.map` upgrade using the spread operator, overriding only `power`
(src/HOF.js lines 262-265), as a function of the input list. -/
def upgradeConcise (items : List Item) : List Item :=
  items.map fun item => { item with power := item.power + 5 }

/-- `upgradedInventoryLoop` (src/HOF.js lines 217-232). -/
def upgradedInventoryLoop : List Item := upgradeLoop inventory

/-- `upgradedInventoryMap` (src/HOF.js lines 253-259). -/
def upgradedInventoryMap : List Item := upgradeMap inventory

/-- `upgradedInventoryConcise` (src/HOF.js lines 262-265). -/
def upgradedInventoryConcise : List Item := upgradeConcise inventory

/-- `usableInventory` (src/HOF.js line 287). -/
def usableInventory : List Item := filterUsable inventory

/-- `usableInventoryAlt` (src/HOF.js line 290): the `!item.broken`
variant of the usable filter. -/
def usableInventoryAlt : List Item := inventory.filter fun item => !item.broken

/-- `upgradeAndFilterInventory` (src/HOF.js lines 302-313): the combined
map-then-filter with the source's fixed delta 5. -/
def upgradeAndFilterInventory (inputInventory : List Item) : List Item :=
  (inputInventory.map fun item => { item with power := item.power + 5 }).filter
    fun item => !item.broken

/-- `powerfulItem` (src/HOF.js line 341). -/
def powerfulItem : Option Item := findFirstAbove inventory 10

/-- `brokenItemIndex` (src/HOF.js line 348). -/
def brokenItemIndex : Int := indexOfFirstBroken inventory

/-- `hasBrokenItems` (src/HOF.js line 356). -/
def hasBrokenItems : Bool := anyBroken inventory

/-- `allPowerful` (src/HOF.js line 364). -/
def allPowerful : Bool := allAbove inventory 5

/-- The value of the `totalPower` constant of src/HOF.js line 371. -/
def totalPowerOfInventory : Int := totalPower inventory

example : totalPowerOfInventory = 35 := by decide
example : powerfulItem = some { name := "Axe", power := 12, broken := false } := by decide
example : brokenItemIndex = 2 := by decide
example : hasBrokenItems = true := by decide
example : allPowerful = false := by decide
example : usableInventory = usableInventoryAlt := by decide

/-! ## Helper lemmas -/

theorem foldl_add_power (S : List Item) :
    ∀ a : Int, S.foldl (fun sum item => sum + item.power) a
      = a + (S.map Item.power).sum := by
  induction S with
  | nil => intro a; simp
  | cons x xs ih =>
      intro a
      simp [List.foldl_cons, ih, List.map_cons, List.sum_cons]
      ring

theorem findIndexBroken_none_iff (S : List Item) :
    findIndexBroken S = none ↔ ∀ x ∈ S, x.broken = false := by
  induction S with
  | nil => simp [findIndexBroken]
  | cons x xs ih =>
      cases hx : x.broken <;>
        simp [findIndexBroken, hx, Option.map_eq_none', ih]

theorem findIndexBroken_some (S : List Item) :
    ∀ i : Nat, findIndexBroken S = some i →
      (∃ x : Item, S[i]? = some x ∧ x.broken = true) ∧
      ∀ j : Nat, j < i → ∀ y : Item, S[j]? = some y → y.broken = false := by
  induction S with
  | nil => intro i h; simp [findIndexBroken] at h
  | cons x xs ih =>
      intro i h
      cases hx : x.broken with
      | true =>
          simp [findIndexBroken, hx] at h
          subst h
          exact ⟨⟨x, by simp, hx⟩, fun j hj => by omega⟩
      | false =>
          simp [findIndexBroken, hx, Option.map_eq_some'] at h
          obtain ⟨k, hk, rfl⟩ := h
          obtain ⟨⟨y, hy, hyb⟩, hfirst⟩ := ih k hk
          refine ⟨⟨y, by simpa using hy, hyb⟩, fun j hj z hz => ?_⟩
          cases j with
          | zero => simp at hz; subst hz; exact hx
          | succ m => exact hfirst m (by omega) z (by simpa using hz)

theorem findIndexBroken_lt (S : List Item) :
    ∀ i : Nat, findIndexBroken S = some i → i < S.length := by
  intro i h
  obtain ⟨⟨x, hx, -⟩, -⟩ := findIndexBroken_some S i h
  exact (List.getElem?_eq_some.mp hx).1

theorem findFirstAbove_eq_some (S : List Item) (t : Int) :
    ∀ x : Item, findFirstAbove S t = some x →
      x.power > t ∧
      ∃ i : Nat, S[i]? = some x ∧
        ∀ j : Nat, j < i → ∀ y : Item, S[j]? = some y → y.power ≤ t := by
  induction S with
  | nil => intro x h; simp [findFirstAbove] at h
  | cons a xs ih =>
      intro x h
      by_cases hp : a.power > t
      · simp [findFirstAbove, List.find?_cons, hp] at h
        subst h
        exact ⟨hp, 0, by simp, fun j hj => by omega⟩
      · rw [show findFirstAbove (a :: xs) t = findFirstAbove xs t from
            List.find?_cons_of_neg _ (by simpa using hp)] at h
        obtain ⟨hpow, i, hi, hfirst⟩ := ih x h
        refine ⟨hpow, i + 1, by simpa using hi, fun j hj y hy => ?_⟩
        cases j with
        | zero =>
            simp at hy
            subst hy
            omega
        | succ m => exact hfirst m (by omega) y (by simpa using hy)

theorem indexOfFirstBroken_of_none {S : List Item}
    (h : findIndexBroken S = none) : indexOfFirstBroken S = -1 := by
  simp [indexOfFirstBroken, h]

theorem indexOfFirstBroken_of_some {S : List Item} {k : Nat}
    (h : findIndexBroken S = some k) : indexOfFirstBroken S = (k : Int) := by
  simp [indexOfFirstBroken, h]

/-! ## Claim theorems -/

/-- C1: for every item sequence S and integer delta d, `upgrade S d` has the
same length as S and, position by position, keeps `name` and `broken` while
`power` becomes the original power plus d. (The embedding is pure, so the
input list is never mutated.) -/
theorem upgrade_contract (S : List Item) (d : Int) :
    (upgrade S d).length = S.length ∧
    ∀ i : Nat,
      ((upgrade S d)[i]?).map Item.name = (S[i]?).map Item.name ∧
      ((upgrade S d)[i]?).map Item.broken = (S[i]?).map Item.broken ∧
      ((upgrade S d)[i]?).map Item.power
        = (S[i]?).map (fun item => item.power + d) := by
  refine ⟨by simp [upgrade], fun i => ?_⟩
  cases h : S[i]? with
  | none => simp [upgrade, List.getElem?_map, h]
  | some x => simp [upgrade, List.getElem?_map, h]

/-- C2: `filterUsable S` is a subsequence of S (hence order-preserving and
possibly shorter or empty) whose members are exactly the elements of S with
`broken = false`. -/
theorem filterUsable_contract (S : List Item) :
    (filterUsable S).Sublist S ∧
    ∀ x : Item, x ∈ filterUsable S ↔ x ∈ S ∧ x.broken = false := by
  constructor
  · simp only [filterUsable]
    exact List.filter_sublist S
  · intro x
    simp [filterUsable, List.mem_filter]

/-- C3: the combined operation is exactly `filterUsable` after `upgrade`. -/
theorem upgradeAndFilter_is_composition (S : List Item) (d : Int) :
    upgradeAndFilter S d = filterUsable (upgrade S d) := by
  induction S with
  | nil => rfl
  | cons a xs ih =>
      obtain ⟨nm, pw, br⟩ := a
      cases br <;>
        simp_all [upgradeAndFilter, filterUsable, upgrade, List.filter_cons]

/-- C4: `totalPower` is the sum of the `power` fields: it is 0 on the empty
sequence, additive over concatenation, and equals 35 on the example
inventory. -/
theorem totalPower_contract :
    (∀ S : List Item, totalPower S = (S.map Item.power).sum) ∧
    totalPower ([] : List Item) = 0 ∧
    (∀ S T : List Item, totalPower (S ++ T) = totalPower S + totalPower T) ∧
    totalPower inventory = 35 := by
  have key : ∀ S : List Item, totalPower S = (S.map Item.power).sum :=
    fun S => by simpa [totalPower] using foldl_add_power S 0
  refine ⟨key, rfl, fun S T => ?_, by decide⟩
  simp [key, List.map_append, List.sum_append]

/-- C5: the transformer operations are total functions in the embedding
(every definition here is a terminating computable function), and "not
found" outcomes are explicit results, never failures: `findFirstAbove`
returns `some` exactly when a matching element exists, and
`indexOfFirstBroken` returns either the sentinel -1 or a valid index of
the input. -/
theorem operations_total (S : List Item) (t : Int) :
    ((findFirstAbove S t).isSome = true ↔ ∃ x ∈ S, x.power > t) ∧
    (indexOfFirstBroken S = -1 ∨
      (0 ≤ indexOfFirstBroken S ∧ indexOfFirstBroken S < (S.length : Int))) := by
  constructor
  · simp [findFirstAbove, List.find?_isSome]
  · rcases h : findIndexBroken S with _ | k
    · exact Or.inl (indexOfFirstBroken_of_none h)
    · refine Or.inr ?_
      rw [indexOfFirstBroken_of_some h]
      have hk := findIndexBroken_lt S k h
      exact ⟨Int.ofNat_nonneg k, by exact_mod_cast hk⟩

/-- C6: `findFirstAbove S t` returns `none` exactly when no element of S
has power above t, and when it returns an element, that element has power
above t and occurs at a position of S before which every element has power
at most t. -/
theorem findFirstAbove_contract (S : List Item) (t : Int) :
    (findFirstAbove S t = none ↔ ∀ x ∈ S, x.power ≤ t) ∧
    ∀ x : Item, findFirstAbove S t = some x →
      x.power > t ∧
      ∃ i : Nat, S[i]? = some x ∧
        ∀ j : Nat, j < i → ∀ y : Item, S[j]? = some y → y.power ≤ t := by
  refine ⟨?_, findFirstAbove_eq_some S t⟩
  simp [findFirstAbove, List.find?_eq_none, not_lt]

/-- C6 witness: on the example inventory with threshold 10, the returned
item is the Axe (power 12, position 3), and every earlier element has
power at most 10. -/
theorem findFirstAbove_contract_witness :
    (Item.mk "Axe" 12 false).power > 10 ∧
    ∃ i : Nat, inventory[i]? = some (Item.mk "Axe" 12 false) ∧
      ∀ j : Nat, j < i → ∀ y : Item, inventory[j]? = some y → y.power ≤ 10 :=
  (findFirstAbove_contract inventory 10).2 (Item.mk "Axe" 12 false) (by decide)

/-- C7: `indexOfFirstBroken S` is -1 exactly when S has no broken element
(a sentinel distinct from every valid index), and when it is a natural
number i, position i of S holds a broken element and every earlier
position holds an unbroken one. -/
theorem indexOfFirstBroken_contract (S : List Item) :
    (indexOfFirstBroken S = -1 ↔ ∀ x ∈ S, x.broken = false) ∧
    ∀ i : Nat, indexOfFirstBroken S = (i : Int) →
      (∃ x : Item, S[i]? = some x ∧ x.broken = true) ∧
      ∀ j : Nat, j < i → ∀ y : Item, S[j]? = some y → y.broken = false := by
  constructor
  · rw [← findIndexBroken_none_iff]
    constructor
    · intro h
      rcases hf : findIndexBroken S with _ | k
      · rfl
      · rw [indexOfFirstBroken_of_some hf] at h
        omega
    · intro h
      exact indexOfFirstBroken_of_none h
  · intro i hi
    rcases hf : findIndexBroken S with _ | k
    · rw [indexOfFirstBroken_of_none hf] at hi
      omega
    · rw [indexOfFirstBroken_of_some hf] at hi
      have hk : k = i := by exact_mod_cast hi
      subst hk
      exact findIndexBroken_some S k hf

/-- C7 witness: on the example inventory the index is 2, position 2 holds
the broken Bow, and positions 0 and 1 hold unbroken items. -/
theorem indexOfFirstBroken_contract_witness :
    (∃ x : Item, inventory[2]? = some x ∧ x.broken = true) ∧
    ∀ j : Nat, j < 2 → ∀ y : Item, inventory[j]? = some y → y.broken = false :=
  (indexOfFirstBroken_contract inventory).2 2 (by decide)

/-- C8: `allAbove S t` is true exactly when every element of S has power
strictly above t, and it is vacuously true on the empty sequence. -/
theorem allAbove_contract (S : List Item) (t : Int) :
    (allAbove S t = true ↔ ∀ x ∈ S, x.power > t) ∧ allAbove [] t = true := by
  refine ⟨?_, rfl⟩
  simp [allAbove, List.all_eq_true]

/-- C9: `anyBroken S` is true exactly when some element of S is broken,
and it is false on the empty sequence. -/
theorem anyBroken_contract (S : List Item) :
    (anyBroken S = true ↔ ∃ x ∈ S, x.broken = true) ∧ anyBroken [] = false := by
  refine ⟨?_, rfl⟩
  simp [anyBroken, List.any_eq_true]

/-- C10: the three upgrade implementations — the for-loop pushing rebuilt
records, the `.map` rebuilding records field by field, and the `.map` with
the spread operator overriding `power` — agree on every input sequence,
and in particular their three source-level results on the example
inventory coincide. -/
theorem upgrade_implementations_agree :
    (∀ S : List Item,
      upgradeLoop S = upgradeMap S ∧ upgradeMap S = upgradeConcise S) ∧
    upgradedInventoryLoop = upgradedInventoryMap ∧
    upgradedInventoryMap = upgradedInventoryConcise := by
  have h1 : ∀ S : List Item, upgradeLoop S = upgradeMap S := by
    intro S
    induction S with
    | nil => rfl
    | cons a xs ih => simp [upgradeLoop, upgradeMap, List.map_cons, ih]
  have h2 : ∀ S : List Item, upgradeMap S = upgradeConcise S := fun S => rfl
  exact ⟨fun S => ⟨h1 S, h2 S⟩,
    by rw [upgradedInventoryLoop, upgradedInventoryMap, h1],
    by rw [upgradedInventoryMap, upgradedInventoryConcise, h2]⟩
